import Mathlib

/-!
Verification of `src/scripts/shader_minifier.py` (`format_shader`), a GLSL
shader minifier: comments are removed, code lines are merged into a buffer,
preprocessor directives are kept on their own lines.

Strings are embedded as `List Char`. Python's library operations used by the
source (`str.splitlines`, `str.find`, slicing, `str.strip` / `lstrip` /
`rstrip`, `str.startswith`, `str.split(sep)[0]`, `"\n".join`) are given
executable Lean counterparts with Python's documented semantics, and
`format_shader` itself is a line-by-line translation of the source.
-/

namespace GLSLMin

/-! ## Definitions: the embedding of `format_shader` and its helpers -/

/-- Shader text, one Python `str`, as a list of characters. -/
abbrev Str := List Char

/-- Python `str.isspace` / the character class stripped by `str.strip()`:
ASCII whitespace, the C0 separators, NEL, NBSP and the Unicode space
separators. -/
def isPySpace (c : Char) : Bool :=
  let n := c.toNat
  (9 ≤ n && n ≤ 13) || (28 ≤ n && n ≤ 32) ||
  n = 0x85 || n = 0xa0 || n = 0x1680 || (0x2000 ≤ n && n ≤ 0x200a) ||
  n = 0x2028 || n = 0x2029 || n = 0x202f || n = 0x205f || n = 0x3000

/-- The characters Python `str.splitlines` treats as line boundaries:
LF, VT, FF, CR, FS, GS, RS, NEL, LINE SEPARATOR, PARAGRAPH SEPARATOR. -/
def isLineBoundary (c : Char) : Bool :=
  let n := c.toNat
  (10 ≤ n && n ≤ 13) || (28 ≤ n && n ≤ 30) ||
  n = 0x85 || n = 0x2028 || n = 0x2029

/-- Python `s.startswith(pat)`, as `startsWith pat s`. -/
def startsWith : Str → Str → Bool
  | [], _ => true
  | _ :: _, [] => false
  | p :: ps, c :: cs => p = c && startsWith ps cs

/-- Index of the first occurrence of `pat` in `s`
(Python `s.find(pat)`, with `none` for `-1`). -/
def findSub (pat : Str) : Str → Option Nat
  | [] => if startsWith pat [] then some 0 else none
  | c :: rest =>
    if startsWith pat (c :: rest) then some 0
    else (findSub pat rest).map (fun n => n + 1)

/-- Python `s.find(pat, start)` — search only
from index `start`, reporting an absolute index. -/
def findSubFrom (pat s : Str) (start : Nat) : Option Nat :=
  (findSub pat (s.drop start)).map (fun n => n + start)

/-- Python `s.split(pat)[0]`: everything before the first occurrence of
`pat`, or all of `s` when `pat` does not occur. -/
def takeBefore (pat s : Str) : Str :=
  match findSub pat s with
  | some i => s.take i
  | none => s

/-- Whether `pat` occurs in `s` as a contiguous substring. -/
def containsSub (pat s : Str) : Bool :=
  (findSub pat s).isSome

/-- Python `s.lstrip()`. -/
def lstrip (s : Str) : Str := s.dropWhile isPySpace

/-- Python `s.rstrip()`. -/
def rstrip (s : Str) : Str := (s.reverse.dropWhile isPySpace).reverse

/-- Python `s.strip()`. -/
def pyStrip (s : Str) : Str := rstrip (lstrip s)

/-- Python `str.splitlines`, accumulator worker: `acc` holds the current
line reversed. A `"\r\n"` pair is one boundary; a trailing boundary does
not open a final empty line. -/
def splitlinesAux : Str → Str → List Str
  | acc, [] => [acc.reverse]
  | acc, '\r' :: '\n' :: rest =>
    if rest.isEmpty then [acc.reverse] else acc.reverse :: splitlinesAux [] rest
  | acc, c :: rest =>
    if isLineBoundary c then
      if rest.isEmpty then [acc.reverse] else acc.reverse :: splitlinesAux [] rest
    else splitlinesAux (c :: acc) rest

/-- Python `str.splitlines` (`input_string.splitlines()` in the source). -/
def splitlines : Str → List Str
  | [] => []
  | c :: rest => splitlinesAux [] (c :: rest)

/-- Python `"\n".join(output_lines)`. -/
def joinLines : List Str → Str
  | [] => []
  | [l] => l
  | l :: l' :: rest => l ++ '\n' :: joinLines (l' :: rest)

/-- The block-comment start marker `/*`. -/
def startMark : Str := ['/', '*']

/-- The block-comment end marker `*/`. -/
def endMark : Str := ['*', '/']

/-- The line-comment marker `//`. -/
def dblSlash : Str := ['/', '/']

/-- The preprocessor-directive marker `#`. -/
def hashMark : Str := ['#']

/-- The loop state of `format_shader`: the emitted output lines, the
accumulator `buffer_line`, and the `in_multiline_comment` flag. -/
structure MinState where
  output_lines : List Str
  buffer_line : Str
  in_multiline_comment : Bool
deriving Repr, DecidableEq

/-- Lines 48–57 of the source: detect a `/*` on the (possibly truncated)
line; if a `*/` follows it on the same line remove that one span, otherwise
keep only the text before `/*` and raise the flag. Returns the surviving
text and the new `in_multiline_comment` flag. -/
def stripBlock (line : Str) : Str × Bool :=
  match findSub startMark line with
  | none => (line, false)
  | some i =>
    match findSubFrom endMark line (i + 2) with
    | some j => (line.take i ++ line.drop (j + 2), false)
    | none => (line.take i, true)

/-- Lines 59–73 of the source: the part of the loop body after comment
handling, applied to the surviving text `p.1` with the new flag `p.2` —
skip blank lines, skip full-line `//` comments, truncate at `//`, strip,
then either flush-and-emit a `#` directive or extend `buffer_line`. -/
def processCode (st : MinState) (p : Str × Bool) : MinState :=
  let line := p.1
  let flag := p.2
  if !(pyStrip line).isEmpty then
    let formatted_line := lstrip line
    if !startsWith dblSlash formatted_line then
      let code_line := rstrip (takeBefore dblSlash formatted_line)
      if startsWith hashMark code_line then
        { output_lines :=
            (if !st.buffer_line.isEmpty then st.output_lines ++ [st.buffer_line]
             else st.output_lines) ++ [code_line],
          buffer_line := [],
          in_multiline_comment := flag }
      else
        { st with buffer_line := st.buffer_line ++ code_line,
                  in_multiline_comment := flag }
    else { st with in_multiline_comment := flag }
  else { st with in_multiline_comment := flag }

/-- One iteration of the `for line in input_string.splitlines()` loop
(lines 36–73 of the source): while inside a multiline comment, look for
`*/` and either resume after it or skip the line; then handle a
block-comment start and the rest of the body. -/
def processLine (st : MinState) (line : Str) : MinState :=
  if st.in_multiline_comment then
    match findSub endMark line with
    | some i => processCode st (stripBlock (line.drop (i + 2)))
    | none => st
  else
    processCode st (stripBlock line)

/-- The state after the whole loop, started from empty output, empty
buffer, and `in_multiline_comment = False`. -/
def finalState (input_string : Str) : MinState :=
  (splitlines input_string).foldl processLine
    { output_lines := [], buffer_line := [], in_multiline_comment := false }

/-- The output lines of the minifier: the loop's `output_lines` with the
remaining non-empty `buffer_line` appended (lines 76–77). -/
def minifyLines (input_string : Str) : List Str :=
  let st := finalState input_string
  if !st.buffer_line.isEmpty then st.output_lines ++ [st.buffer_line]
  else st.output_lines

/-- The function `format_shader` (lines 20–79 of the source): minify GLSL shader code. -/
def format_shader (input_string : Str) : Str :=
  joinLines (minifyLines input_string)

/-- The comment-handling phase of one loop iteration (lines 37–57 of the
source): the text of the line that survives comment removal, and the new
`in_multiline_comment` flag. A line skipped wholly inside a block comment
survives as `[]` with the flag still raised. -/
def scanLine (inML : Bool) (line : Str) : Str × Bool :=
  if inML then
    match findSub endMark line with
    | some i => stripBlock (line.drop (i + 2))
    | none => ([], true)
  else stripBlock line

/-- What a line's surviving text contributes to the output: `none` for
blank lines and full-line `//` comments, otherwise the cleaned
`code_line` (leading whitespace stripped, truncated at `//`, trailing
whitespace stripped). -/
def contribRaw (line : Str) : Option Str :=
  if (pyStrip line).isEmpty then none
  else if startsWith dblSlash (lstrip line) then none
  else some (rstrip (takeBefore dblSlash (lstrip line)))

/-- The `code_line` a whole input line contributes, given the incoming
`in_multiline_comment` flag. -/
def contribOf (inML : Bool) (line : Str) : Option Str :=
  contribRaw (scanLine inML line).1

/-- The `in_multiline_comment` flag after processing one line. -/
def nextFlag (inML : Bool) (line : Str) : Bool :=
  (scanLine inML line).2

/-- The output lines a list of contributed code lines produces: a
non-directive contribution extends the current run `buf`, a directive
contribution flushes the run and stands alone, and a final non-empty run
is flushed at the end. -/
def groupRuns : Str → List Str → List Str
  | buf, [] => if buf.isEmpty then [] else [buf]
  | buf, cl :: rest =>
    if startsWith hashMark cl then
      (if buf.isEmpty then [] else [buf]) ++ cl :: groupRuns [] rest
    else groupRuns (buf ++ cl) rest

/-- The code lines contributed by a list of input lines, in order,
threading the `in_multiline_comment` flag. -/
def contribs : Bool → List Str → List Str
  | _, [] => []
  | f, l :: ls =>
    match contribOf f l with
    | none => contribs (nextFlag f l) ls
    | some cl => cl :: contribs (nextFlag f l) ls

/-- The output lines of a loop state once the loop is over:
`output_lines` plus the final flush of a non-empty buffer. -/
def emit (st : MinState) : List Str :=
  st.output_lines ++ (if st.buffer_line.isEmpty then [] else [st.buffer_line])

/-- A well-formed output line: non-empty, and neither its first nor its
last character is whitespace. -/
def goodLine (l : Str) : Bool :=
  !l.isEmpty && !isPySpace (l.headD 'x') && !isPySpace (l.getLastD 'x')

/-- No character of `l` is a line boundary (in particular no `'\n'`). -/
def noBdry (l : Str) : Bool :=
  l.all (fun c => !isLineBoundary c)

/-- No two adjacent lines are both non-directives. -/
def altOk : List Str → Bool
  | [] => true
  | [_] => true
  | a :: b :: rest => (startsWith hashMark a || startsWith hashMark b) && altOk (b :: rest)

/-- Concatenation of a list of lines with no separator. -/
def concatAll : List Str → Str
  | [] => []
  | l :: ls => l ++ concatAll ls

/-- Whether `s` contains two adjacent newline characters. -/
def hasDoubleNl : Str → Bool
  | [] => false
  | [_] => false
  | a :: b :: rest => (a = '\n' && b = '\n') || hasDoubleNl (b :: rest)

/-- The string `s` with every newline character removed. -/
def removeNl (s : Str) : Str := s.filter (fun c => !(c == '\n'))

/-- The non-comment portion of each input line, per the code's own
scanning discipline: block comments removed by `scanLine` (one detection
per line; an unterminated block comment discards the rest), leading
whitespace dropped, and the line truncated at its first `//`. -/
def codeKept : Bool → List Str → Str
  | _, [] => []
  | f, l :: ls =>
    takeBefore dblSlash (lstrip (scanLine f l).1) ++ codeKept (nextFlag f l) ls

/-- The non-comment characters of the whole input, per the code's own
per-line scanning discipline. -/
def codeNonComment (s : Str) : Str := codeKept false (splitlines s)

/-- No comment marker (`//`, `/*`, `*/`) occurs anywhere in `s`. -/
def noMarkers (s : Str) : Bool :=
  !containsSub dblSlash s && !containsSub startMark s && !containsSub endMark s

/-- A line already in minified form: well-formed and free of `//` and `/*`. -/
def goodMinLine (l : Str) : Bool :=
  goodLine l && !containsSub dblSlash l && !containsSub startMark l

/-- A string in minified form: it equals the join of its own lines, every
line is well-formed and comment-free, and no two adjacent lines are both
non-directives. -/
def minifiedForm (t : Str) : Bool :=
  decide (t = joinLines (splitlines t)) &&
  (splitlines t).all goodMinLine && altOk (splitlines t)

/-- Whether the list is empty or starts with a directive line. -/
def headHash : List Str → Bool
  | [] => true
  | a :: _ => startsWith hashMark a

/-- Mode of the spec-level comment-region scanner. -/
inductive ScanMode
  | normal
  | lineComment
  | blockComment
deriving Repr, DecidableEq

/-- Modelled from the spec: its comment-removal property speaks of text
"purely inside a `//...` or `/*...*/` region" of the input. This
character-level scanner keeps exactly the characters outside those
regions: `//` opens a region that runs to (not including) the next
newline, `/*` opens a region that runs through the next `*/`, and an
unterminated block comment consumes the rest of the input (the spec's
unterminated-comment rule). -/
def specScan : ScanMode → Str → Str
  | _, [] => []
  | ScanMode.normal, '/' :: '/' :: rest => specScan ScanMode.lineComment rest
  | ScanMode.normal, '/' :: '*' :: rest => specScan ScanMode.blockComment rest
  | ScanMode.normal, c :: rest => c :: specScan ScanMode.normal rest
  | ScanMode.lineComment, '\n' :: rest => '\n' :: specScan ScanMode.normal rest
  | ScanMode.lineComment, _ :: rest => specScan ScanMode.lineComment rest
  | ScanMode.blockComment, '*' :: '/' :: rest => specScan ScanMode.normal rest
  | ScanMode.blockComment, _ :: rest => specScan ScanMode.blockComment rest

/-- Modelled from the spec: the input's non-comment characters under the
spec's reading of comment regions. -/
def specNonComment (s : Str) : Str := specScan ScanMode.normal s

/-- Modelled from the spec: split "on `\n`, with or without preceding
`\r`" and on nothing else — the line-splitting rule the spec states.
Worker with the current line accumulated in reverse. -/
def splitLFAux : Str → Str → List Str
  | acc, [] => [acc.reverse]
  | acc, '\r' :: '\n' :: rest =>
    if rest.isEmpty then [acc.reverse] else acc.reverse :: splitLFAux [] rest
  | acc, '\n' :: rest =>
    if rest.isEmpty then [acc.reverse] else acc.reverse :: splitLFAux [] rest
  | acc, c :: rest => splitLFAux (c :: acc) rest

/-- Modelled from the spec: split only at LF / CRLF line terminators. -/
def splitLinesLF : Str → List Str
  | [] => []
  | c :: rest => splitLFAux [] (c :: rest)

/-- Consume one line terminator at the head of `s`: a `"\r\n"` pair as a
unit, otherwise a single character. -/
def dropTerm : Str → Str
  | [] => []
  | c :: rest => if c = '\r' && rest.headD 'x' = '\n' then rest.tail else rest

/-- A span-based reformulation of Python `str.splitlines`: take the
longest boundary-free span as a line, consume one terminator, repeat;
a trailing terminator opens no final empty line. -/
def splitFull (s : Str) : List Str :=
  match s with
  | [] => []
  | c :: rest =>
    (c :: rest).takeWhile (fun x => !isLineBoundary x) ::
      splitFull (dropTerm ((c :: rest).dropWhile (fun x => !isLineBoundary x)))
termination_by s.length
decreasing_by
  cases hd : (c :: rest).dropWhile (fun x => !isLineBoundary x) with
  | nil => simp [dropTerm]
  | cons d w =>
    have hlen : (d :: w).length ≤ (c :: rest).length := by
      have h := (List.dropWhile_sublist (l := c :: rest) (fun x => !isLineBoundary x)).length_le
      rw [hd] at h
      exact h
    have h1 : w.tail.length ≤ w.length := by cases w <;> simp
    rw [dropTerm]
    split <;> simp only [List.length_cons] at * <;> omega

/-- The directive code lines among the contributions of a list of input
lines, in order. -/
def hashContribs (f : Bool) (ls : List Str) : List Str :=
  (contribs f ls).filter (fun l => startsWith hashMark l)

/-- Formalizing the idempotence claim's "every directive on its own
line": any line mentioning `#` is itself a directive line. -/
def dirsOwnLine (t : Str) : Bool :=
  (splitlines t).all (fun l => !l.contains '#' || startsWith hashMark l)

/-- Formalizing the idempotence claim's "no blank lines". -/
def noBlankLines (t : Str) : Bool :=
  (splitlines t).all (fun l => !(pyStrip l).isEmpty)

/-! ## Theorems -/

theorem startsWith_iff_pre : ∀ p s : Str, startsWith p s = true ↔ p <+: s
  | [], s => by simp [startsWith]
  | _ :: _, [] => by simp [startsWith]
  | a :: ps, c :: cs => by
    simp only [startsWith, Bool.and_eq_true, decide_eq_true_eq,
      startsWith_iff_pre ps cs, List.cons_prefix_cons]

theorem startsWith_of_pre {p u w : Str} (hu : u <+: w) (h : startsWith p u = true) :
    startsWith p w = true := by
  rw [startsWith_iff_pre] at h ⊢
  exact h.trans hu

theorem startsWith_single {a : Char} {s : Str} :
    startsWith [a] s = true ↔ s.head? = some a := by
  cases s with
  | nil => simp [startsWith]
  | cons c cs => simp [startsWith, eq_comm]

theorem findSub_eq_some_zero {p s : Str} (h : startsWith p s = true) :
    findSub p s = some 0 := by
  cases s <;> simp [findSub, h]

theorem containsSub_of_startsWith {p s : Str} (h : startsWith p s = true) :
    containsSub p s = true := by
  simp [containsSub, findSub_eq_some_zero h]

theorem containsSub_nil_pat (s : Str) : containsSub [] s = true := by
  cases s <;> simp [containsSub, findSub, startsWith]

theorem containsSub_cons (p : Str) (c : Char) (s : Str) :
    containsSub p (c :: s) = (startsWith p (c :: s) || containsSub p s) := by
  by_cases h : startsWith p (c :: s) = true
  · simp [containsSub, findSub, h]
  · simp only [Bool.not_eq_true] at h
    cases hf : findSub p s <;> simp [containsSub, findSub, h, hf]

theorem containsSub_append_right {p s : Str} (x : Str) (h : containsSub p s = true) :
    containsSub p (x ++ s) = true := by
  induction x with
  | nil => simpa
  | cons c x ih => rw [List.cons_append, containsSub_cons]; simp [ih]

theorem containsSub_append_left {p s : Str} (y : Str) (h : containsSub p s = true) :
    containsSub p (s ++ y) = true := by
  induction s with
  | nil =>
    have hp : p = [] := by
      cases p with
      | nil => rfl
      | cons a ps => simp [containsSub, findSub, startsWith] at h
    subst hp
    exact containsSub_nil_pat y
  | cons c s ih =>
    rw [containsSub_cons] at h
    rw [List.cons_append, containsSub_cons]
    rcases Bool.or_eq_true_iff.mp h with h1 | h2
    · have h1' : startsWith p (c :: (s ++ y)) = true := by
        simpa using startsWith_of_pre (List.prefix_append (c :: s) y) h1
      simp [h1']
    · simp [ih h2]

theorem findSub_take_none {a : Char} {ps l : Str} : ∀ {i : Nat},
    findSub (a :: ps) l = some i → findSub (a :: ps) (l.take i) = none := by
  induction l with
  | nil => intro i h; simp [findSub, startsWith] at h
  | cons c rest ih =>
    intro i h
    by_cases hs : startsWith (a :: ps) (c :: rest) = true
    · rw [findSub, if_pos hs] at h
      obtain rfl : i = 0 := by simpa using h.symm
      simp [findSub, startsWith]
    · rw [findSub, if_neg hs] at h
      cases hf : findSub (a :: ps) rest with
      | none => rw [hf] at h; simp at h
      | some i' =>
        rw [hf] at h
        simp only [Option.map_some'] at h
        obtain rfl : i' + 1 = i := by simpa using h
        rw [List.take_succ_cons, findSub, if_neg, ih hf]
        · rfl
        · intro hcontra
          exact hs (startsWith_of_pre
            (List.cons_prefix_cons.mpr ⟨rfl, List.take_prefix i' rest⟩) hcontra)

theorem findSub_none_of_not_mem {a : Char} {ps l : Str} (h : a ∉ l) :
    findSub (a :: ps) l = none := by
  induction l with
  | nil => simp [findSub, startsWith]
  | cons c rest ih =>
    rw [findSub, if_neg, ih (fun hm => h (List.mem_cons_of_mem _ hm))]
    · rfl
    · intro hs
      have hac : a = c ∧ startsWith ps rest = true := by
        simpa [startsWith] using hs
      exact h (hac.1 ▸ List.mem_cons_self a rest)

theorem lstrip_sublist (s : Str) : List.Sublist (lstrip s) s := List.dropWhile_sublist _

theorem rstrip_pre (s : Str) : rstrip s <+: s := by
  refine ⟨(s.reverse.takeWhile isPySpace).reverse, ?_⟩
  rw [rstrip, ← List.reverse_append, List.takeWhile_append_dropWhile, List.reverse_reverse]

theorem rstrip_sublist (s : Str) : List.Sublist (rstrip s) s := (rstrip_pre s).sublist

theorem takeBefore_pre (p s : Str) : takeBefore p s <+: s := by
  unfold takeBefore
  cases findSub p s with
  | none => exact List.prefix_refl s
  | some i => exact List.take_prefix i s

theorem dropWhile_head_false {p : Char → Bool} :
    ∀ {s : Str} {c : Char} {t : Str}, s.dropWhile p = c :: t → p c = false := by
  intro s
  induction s with
  | nil => intro c t h; simp [List.dropWhile] at h
  | cons a s' ih =>
    intro c t h
    rw [List.dropWhile_cons] at h
    by_cases ha : p a = true
    · rw [if_pos ha] at h; exact ih h
    · rw [if_neg ha] at h
      cases h
      simpa using ha

theorem lstrip_eq_self {c : Char} {t : Str} (h : isPySpace c = false) :
    lstrip (c :: t) = c :: t := by
  rw [lstrip, List.dropWhile_cons, if_neg (by simp [h])]

theorem rstrip_eq_nil_iff {s : Str} : rstrip s = [] ↔ ∀ c ∈ s, isPySpace c = true := by
  rw [rstrip, List.reverse_eq_nil_iff, List.dropWhile_eq_nil_iff]
  constructor
  · intro h c hc; exact h c (List.mem_reverse.mpr hc)
  · intro h c hc; exact h c (List.mem_reverse.mp hc)

theorem rstrip_getLastD (s : Str) : isPySpace ((rstrip s).getLastD 'x') = false := by
  rw [rstrip]
  cases hw : s.reverse.dropWhile isPySpace with
  | nil => decide
  | cons d w' =>
    have hd : isPySpace d = false := dropWhile_head_false hw
    rw [List.getLastD_eq_getLast?, List.getLast?_reverse]
    simpa using hd

theorem head?_of_pre {u w : Str} (h : u <+: w) (hu : u ≠ []) : w.head? = u.head? := by
  obtain ⟨t, rfl⟩ := h
  cases u with
  | nil => exact absurd rfl hu
  | cons c u' => rfl

theorem pyStrip_isEmpty_iff {s : Str} :
    (pyStrip s).isEmpty = true ↔ ∀ c ∈ s, isPySpace c = true := by
  rw [List.isEmpty_iff, pyStrip]
  constructor
  · intro h c hc
    by_contra hc'
    have hsplit := List.takeWhile_append_dropWhile isPySpace s
    rw [← hsplit] at hc
    have hcs : c ∈ lstrip s := by
      rcases List.mem_append.mp hc with h1 | h2
      · exact absurd (List.mem_takeWhile_imp h1) hc'
      · exact h2
    exact hc' (rstrip_eq_nil_iff.mp h c hcs)
  · intro h
    have h1 : lstrip s = [] := List.dropWhile_eq_nil_iff.mpr h
    rw [h1]
    rfl

theorem getLastD_irrel {b : Str} (h : b ≠ []) (d e : Char) : b.getLastD d = b.getLastD e := by
  cases b with
  | nil => exact absurd rfl h
  | cons y b' => rw [List.getLastD_cons, List.getLastD_cons]

theorem getLastD_append_right {a b : Str} (h : b ≠ []) :
    ∀ d, (a ++ b).getLastD d = b.getLastD d := by
  induction a with
  | nil => intro d; rfl
  | cons x a ih => intro d; rw [List.cons_append, List.getLastD_cons, ih x, getLastD_irrel h x d]

theorem headD_append_left {a : Str} (b : Str) (h : a ≠ []) (d : Char) :
    (a ++ b).headD d = a.headD d := by
  cases a with
  | nil => exact absurd rfl h
  | cons c a' => rfl

theorem processLine_eq_scan (st : MinState) (line : Str) :
    processLine st line = processCode st (scanLine st.in_multiline_comment line) := by
  unfold processLine scanLine
  by_cases h : st.in_multiline_comment
  · rw [if_pos h, if_pos h]
    cases findSub endMark line with
    | some i => rfl
    | none =>
      obtain ⟨o, b, f⟩ := st
      simp only at h
      subst h
      rfl
  · rw [if_neg h, if_neg h]

/-- The function `processCode` in terms of the surviving text's contribution. -/
theorem processCode_decomp (st : MinState) (p : Str × Bool) :
    processCode st p =
      match contribRaw p.1 with
      | none => { st with in_multiline_comment := p.2 }
      | some cl =>
        if startsWith hashMark cl then
          { output_lines :=
              (if !st.buffer_line.isEmpty then st.output_lines ++ [st.buffer_line]
               else st.output_lines) ++ [cl],
            buffer_line := [], in_multiline_comment := p.2 }
        else { st with buffer_line := st.buffer_line ++ cl,
                       in_multiline_comment := p.2 } := by
  unfold processCode contribRaw
  by_cases h1 : (pyStrip p.1).isEmpty
  · simp [h1]
  · by_cases h2 : startsWith dblSlash (lstrip p.1)
    · simp [h1, h2]
    · simp [h1, h2]

/-- One loop iteration in terms of the line's contribution and next flag. -/
theorem processLine_decomp (st : MinState) (line : Str) :
    processLine st line =
      match contribOf st.in_multiline_comment line with
      | none => { st with in_multiline_comment := nextFlag st.in_multiline_comment line }
      | some cl =>
        if startsWith hashMark cl then
          { output_lines :=
              (if !st.buffer_line.isEmpty then st.output_lines ++ [st.buffer_line]
               else st.output_lines) ++ [cl],
            buffer_line := [], in_multiline_comment := nextFlag st.in_multiline_comment line }
        else { st with buffer_line := st.buffer_line ++ cl,
                       in_multiline_comment := nextFlag st.in_multiline_comment line } := by
  rw [processLine_eq_scan, processCode_decomp]
  rfl

theorem foldl_emit : ∀ (ls : List Str) (st : MinState),
    emit (ls.foldl processLine st) =
      st.output_lines ++ groupRuns st.buffer_line (contribs st.in_multiline_comment ls) := by
  intro ls
  induction ls with
  | nil =>
    intro st
    by_cases h : st.buffer_line.isEmpty <;> simp [emit, groupRuns, contribs, h]
  | cons l ls ih =>
    intro st
    rw [List.foldl_cons, ih, processLine_decomp]
    cases hc : contribOf st.in_multiline_comment l with
    | none => simp [contribs, hc]
    | some cl =>
      by_cases hh : startsWith hashMark cl = true
      · by_cases he : st.buffer_line.isEmpty <;>
          simp [contribs, groupRuns, hc, hh, he]
      · simp only [Bool.not_eq_true] at hh
        simp [contribs, groupRuns, hc, hh]

theorem minifyLines_eq_emit (s : Str) : minifyLines s = emit (finalState s) := by
  unfold minifyLines emit
  by_cases h : (finalState s).buffer_line.isEmpty <;> simp [h]

/-- Master characterization: the minifier's output lines are the grouped
runs of the lines' contributions. -/
theorem minifyLines_eq_groupRuns (s : Str) :
    minifyLines s = groupRuns [] (contribs false (splitlines s)) := by
  rw [minifyLines_eq_emit, finalState]
  simpa [emit] using foldl_emit (splitlines s)
    { output_lines := [], buffer_line := [], in_multiline_comment := false }

theorem splitlinesAux_cons_nb {c : Char} (acc rest : Str) (h : isLineBoundary c = false) :
    splitlinesAux acc (c :: rest) = splitlinesAux (c :: acc) rest := by
  have hno : ∀ (r1 : List Char), c = '\x0d' → rest = '\n' :: r1 → False := by
    intro r1 hc _
    subst hc
    exact absurd h (by decide)
  rw [splitlinesAux.eq_3 acc c rest hno, if_neg (by simp [h])]

theorem splitlinesAux_cons_bd {c : Char} (acc rest : Str) (h : isLineBoundary c = true)
    (hno : ∀ (r1 : List Char), c = '\x0d' → rest = '\n' :: r1 → False) :
    splitlinesAux acc (c :: rest) =
      if rest.isEmpty then [acc.reverse] else acc.reverse :: splitlinesAux [] rest := by
  rw [splitlinesAux.eq_3 acc c rest hno, if_pos h]

theorem noBdry_reverse {acc : Str} (hacc : ∀ c ∈ acc, isLineBoundary c = false) :
    noBdry acc.reverse = true := by
  rw [noBdry, List.all_eq_true]
  intro c hc
  simpa using hacc c (List.mem_reverse.mp hc)

theorem splitlinesAux_noBdry (acc s : Str) :
    (∀ c ∈ acc, isLineBoundary c = false) →
    ∀ l ∈ splitlinesAux acc s, noBdry l = true := by
  induction acc, s using splitlinesAux.induct with
  | case1 acc =>
    intro hacc l hl
    rw [splitlinesAux.eq_1] at hl
    simp only [List.mem_singleton] at hl
    subst hl
    exact noBdry_reverse hacc
  | case2 acc rest hre =>
    intro hacc l hl
    rw [splitlinesAux.eq_2, if_pos hre] at hl
    simp only [List.mem_singleton] at hl
    subst hl
    exact noBdry_reverse hacc
  | case3 acc rest hre ih =>
    intro hacc l hl
    rw [splitlinesAux.eq_2, if_neg hre] at hl
    rcases List.mem_cons.mp hl with h1 | h2
    · subst h1; exact noBdry_reverse hacc
    · exact ih (by simp) l h2
  | case4 acc c rest hno hb hre =>
    intro hacc l hl
    rw [splitlinesAux_cons_bd acc rest hb hno, if_pos hre] at hl
    simp only [List.mem_singleton] at hl
    subst hl
    exact noBdry_reverse hacc
  | case5 acc c rest hno hb hre ih =>
    intro hacc l hl
    rw [splitlinesAux_cons_bd acc rest hb hno, if_neg hre] at hl
    rcases List.mem_cons.mp hl with h1 | h2
    · subst h1; exact noBdry_reverse hacc
    · exact ih (by simp) l h2
  | case6 acc c rest hno hb ih =>
    intro hacc l hl
    rw [splitlinesAux_cons_nb acc rest (by simpa using hb)] at hl
    refine ih ?_ l hl
    intro d hd
    rcases List.mem_cons.mp hd with h1 | h2
    · subst h1; simpa using hb
    · exact hacc d h2

/-- Every line produced by `splitlines` is free of line-boundary
characters. -/
theorem splitlines_noBdry (s : Str) : ∀ l ∈ splitlines s, noBdry l = true := by
  cases s with
  | nil => simp [splitlines]
  | cons c rest => exact splitlinesAux_noBdry [] (c :: rest) (by simp)

theorem stripBlock_eq_none {line : Str} (h : findSub startMark line = none) :
    stripBlock line = (line, false) := by
  unfold stripBlock
  simp only [h]

theorem stripBlock_eq_pair {line : Str} {i j : Nat} (h : findSub startMark line = some i)
    (h2 : findSubFrom endMark line (i + 2) = some j) :
    stripBlock line = (line.take i ++ line.drop (j + 2), false) := by
  unfold stripBlock
  simp only [h, h2]

theorem stripBlock_eq_open {line : Str} {i : Nat} (h : findSub startMark line = some i)
    (h2 : findSubFrom endMark line (i + 2) = none) :
    stripBlock line = (line.take i, true) := by
  unfold stripBlock
  simp only [h, h2]

theorem findSubFrom_ge {p s : Str} {start j : Nat} (h : findSubFrom p s start = some j) :
    start ≤ j := by
  unfold findSubFrom at h
  cases hf : findSub p (s.drop start) with
  | none => rw [hf] at h; simp at h
  | some k => rw [hf] at h; simp at h; omega

theorem stripBlock_sublist (line : Str) : List.Sublist (stripBlock line).1 line := by
  cases h1 : findSub startMark line with
  | none => rw [stripBlock_eq_none h1]
  | some i =>
    cases h2 : findSubFrom endMark line (i + 2) with
    | none =>
      rw [stripBlock_eq_open h1 h2]
      exact List.take_sublist i line
    | some j =>
      rw [stripBlock_eq_pair h1 h2]
      have hij : i + 2 ≤ j := findSubFrom_ge h2
      have h3 : List.Sublist (line.drop (j + 2)) (line.drop i) := by
        have hd : line.drop (j + 2) = (line.drop i).drop (j + 2 - i) := by
          rw [List.drop_drop]
          congr 1
          omega
        rw [hd]
        exact List.drop_sublist _ _
      have h4 := List.Sublist.append (List.Sublist.refl (line.take i)) h3
      rwa [List.take_append_drop] at h4

theorem scanLine_sublist (f : Bool) (line : Str) :
    List.Sublist (scanLine f line).1 line := by
  unfold scanLine
  by_cases hf : f = true
  · rw [if_pos hf]
    cases findSub endMark line with
    | some i =>
      exact (stripBlock_sublist (line.drop (i + 2))).trans (List.drop_sublist _ _)
    | none => exact List.nil_sublist line
  · rw [if_neg hf]
    exact stripBlock_sublist line

theorem contribRaw_eq {line cl : Str} (h : contribRaw line = some cl) :
    cl = rstrip (takeBefore dblSlash (lstrip line)) ∧
    (pyStrip line).isEmpty = false ∧ startsWith dblSlash (lstrip line) = false := by
  unfold contribRaw at h
  by_cases h1 : (pyStrip line).isEmpty
  · simp [h1] at h
  · by_cases h2 : startsWith dblSlash (lstrip line)
    · simp [h1, h2] at h
    · rw [if_neg h1, if_neg h2] at h
      simp only [Option.some.injEq] at h
      exact ⟨h.symm, by simpa using h1, by simpa using h2⟩

theorem takeBefore_head {p s : Str} (h : startsWith p s = false) (hs : s ≠ []) :
    (takeBefore p s).head? = s.head? ∧ takeBefore p s ≠ [] := by
  unfold takeBefore
  cases hf : findSub p s with
  | none => exact ⟨rfl, hs⟩
  | some i =>
    cases s with
    | nil => exact absurd rfl hs
    | cons c t =>
      cases i with
      | zero =>
        rw [findSub] at hf
        by_cases hsw : startsWith p (c :: t) = true
        · rw [hsw] at h; cases h
        · rw [if_neg hsw] at hf
          cases hg : findSub p t <;> rw [hg] at hf <;> simp at hf
      | succ k =>
        constructor
        · show (List.take (k + 1) (c :: t)).head? = (c :: t).head?
          rw [List.take_succ_cons]
          rfl
        · show List.take (k + 1) (c :: t) ≠ []
          rw [List.take_succ_cons]
          simp

theorem contribRaw_good {line cl : Str} (h : contribRaw line = some cl) :
    goodLine cl = true := by
  obtain ⟨hcl, h1, h2⟩ := contribRaw_eq h
  obtain ⟨c, t, hls⟩ : ∃ c t, lstrip line = c :: t := by
    cases hx : lstrip line with
    | nil => rw [pyStrip, hx] at h1; simp [rstrip] at h1
    | cons c t => exact ⟨c, t, rfl⟩
  have hc : isPySpace c = false := dropWhile_head_false hls
  have hne : lstrip line ≠ [] := by rw [hls]; simp
  obtain ⟨hh, hzne⟩ := takeBefore_head (p := dblSlash) h2 hne
  have hh2 : (takeBefore dblSlash (lstrip line)).head? = some c := by
    rw [hh, hls]
    rfl
  obtain ⟨zt, hzt⟩ : ∃ zt, takeBefore dblSlash (lstrip line) = c :: zt := by
    cases hx : takeBefore dblSlash (lstrip line) with
    | nil => rw [hx] at hh2; simp at hh2
    | cons d zt =>
      rw [hx] at hh2
      simp only [List.head?_cons, Option.some.injEq] at hh2
      exact ⟨zt, by rw [hh2]⟩
  rw [hzt] at hcl
  have hclne : cl ≠ [] := by
    rw [hcl]
    intro hnil
    exact absurd (rstrip_eq_nil_iff.mp hnil c (List.mem_cons_self c zt)) (by simp [hc])
  have hhead2 : cl.head? = some c := by
    have hpre := rstrip_pre (c :: zt)
    rw [← hcl] at hpre
    have := head?_of_pre hpre hclne
    simpa using this.symm
  have e1 : cl.isEmpty = false := by
    cases hx : cl.isEmpty with
    | false => rfl
    | true => exact absurd (List.isEmpty_iff.mp hx) hclne
  have e2 : cl.headD 'x' = c := by
    rw [List.headD_eq_head?, hhead2]
    rfl
  have e3 : isPySpace (cl.getLastD 'x') = false := by
    rw [hcl]
    exact rstrip_getLastD _
  rw [goodLine, e1, e2, e3, hc]
  rfl

theorem contribRaw_sublist {line cl : Str} (h : contribRaw line = some cl) :
    List.Sublist cl line := by
  obtain ⟨hcl, -, -⟩ := contribRaw_eq h
  rw [hcl]
  exact ((rstrip_sublist _).trans ((takeBefore_pre _ _).sublist)).trans (lstrip_sublist line)

theorem contribOf_sublist {f : Bool} {line cl : Str} (h : contribOf f line = some cl) :
    List.Sublist cl line :=
  (contribRaw_sublist h).trans (scanLine_sublist f line)

theorem noBdry_of_sublist {u w : Str} (h : List.Sublist u w) (hw : noBdry w = true) :
    noBdry u = true := by
  rw [noBdry, List.all_eq_true] at hw ⊢
  intro c hc
  exact hw c (h.subset hc)

theorem contribs_good : ∀ (ls : List Str) (f : Bool), (∀ l ∈ ls, noBdry l = true) →
    ∀ cl ∈ contribs f ls, goodLine cl = true ∧ noBdry cl = true := by
  intro ls
  induction ls with
  | nil => intro f _ cl hcl; simp [contribs] at hcl
  | cons l ls ih =>
    intro f hls cl hcl
    rw [contribs] at hcl
    cases hc : contribOf f l with
    | none =>
      rw [hc] at hcl
      exact ih _ (fun x hx => hls x (List.mem_cons_of_mem _ hx)) cl hcl
    | some c0 =>
      rw [hc] at hcl
      rcases List.mem_cons.mp hcl with h1 | h2
      · subst h1
        exact ⟨contribRaw_good hc,
          noBdry_of_sublist (contribOf_sublist hc) (hls l (List.mem_cons_self _ _))⟩
      · exact ih _ (fun x hx => hls x (List.mem_cons_of_mem _ hx)) cl h2

theorem ne_nil_of_isEmpty_eq_false {l : Str} (h : l.isEmpty = false) : l ≠ [] := by
  intro hx
  rw [hx] at h
  simp at h

theorem isEmpty_eq_false_of_ne_nil {l : Str} (h : l ≠ []) : l.isEmpty = false := by
  cases hx : l.isEmpty with
  | false => rfl
  | true => exact absurd (List.isEmpty_iff.mp hx) h

theorem goodLine_append {a b : Str} (ha : goodLine a = true) (hb : goodLine b = true) :
    goodLine (a ++ b) = true := by
  rw [goodLine, Bool.and_eq_true, Bool.and_eq_true] at ha hb
  obtain ⟨⟨ha1, ha2⟩, ha3⟩ := ha
  obtain ⟨⟨hb1, hb2⟩, hb3⟩ := hb
  have hane : a ≠ [] := ne_nil_of_isEmpty_eq_false (by simpa using ha1)
  have hbne : b ≠ [] := ne_nil_of_isEmpty_eq_false (by simpa using hb1)
  rw [goodLine, headD_append_left b hane, getLastD_append_right hbne]
  have : (a ++ b).isEmpty = false := by
    cases a with
    | nil => exact absurd rfl hane
    | cons x a' => rfl
  rw [this]
  simp only [Bool.not_false, Bool.true_and]
  rw [Bool.and_eq_true]
  exact ⟨ha2, hb3⟩

theorem noBdry_append {a b : Str} (ha : noBdry a = true) (hb : noBdry b = true) :
    noBdry (a ++ b) = true := by
  rw [noBdry, List.all_eq_true] at ha hb ⊢
  intro c hc
  rcases List.mem_append.mp hc with h | h
  · exact ha c h
  · exact hb c h

theorem groupRuns_pred (Q : Str → Bool)
    (hApp : ∀ a b, Q a = true → Q b = true → Q (a ++ b) = true) :
    ∀ (cls : List Str) (buf : Str), (buf = [] ∨ Q buf = true) →
    (∀ cl ∈ cls, Q cl = true) → ∀ l ∈ groupRuns buf cls, Q l = true := by
  intro cls
  induction cls with
  | nil =>
    intro buf hbuf hcls l hl
    rw [groupRuns] at hl
    by_cases he : buf.isEmpty
    · rw [if_pos he] at hl
      simp at hl
    · rw [if_neg he] at hl
      simp only [List.mem_singleton] at hl
      subst hl
      rcases hbuf with h1 | h2
      · exact absurd (by rw [h1]; rfl) he
      · exact h2
  | cons cl cls ih =>
    intro buf hbuf hcls l hl
    rw [groupRuns] at hl
    by_cases hh : startsWith hashMark cl = true
    · rw [if_pos hh] at hl
      rcases List.mem_append.mp hl with h1 | h2
      · by_cases he : buf.isEmpty
        · rw [if_pos he] at h1
          simp at h1
        · rw [if_neg he] at h1
          simp only [List.mem_singleton] at h1
          subst h1
          rcases hbuf with hb | hb
          · exact absurd (by rw [hb]; rfl) he
          · exact hb
      · rcases List.mem_cons.mp h2 with h3 | h4
        · subst h3
          exact hcls l (List.mem_cons_self _ _)
        · exact ih [] (Or.inl rfl) (fun x hx => hcls x (List.mem_cons_of_mem _ hx)) l h4
    · rw [if_neg hh] at hl
      refine ih (buf ++ cl) ?_ (fun x hx => hcls x (List.mem_cons_of_mem _ hx)) l hl
      right
      rcases hbuf with hb | hb
      · rw [hb]
        simpa using hcls cl (List.mem_cons_self _ _)
      · exact hApp _ _ hb (hcls cl (List.mem_cons_self _ _))

theorem startsWith_hash_append {buf cl : Str} (hb : startsWith hashMark buf = false)
    (hc : startsWith hashMark cl = false) : startsWith hashMark (buf ++ cl) = false := by
  cases buf with
  | nil => simpa using hc
  | cons b bt =>
    simp only [hashMark, startsWith, Bool.and_eq_false_iff] at hb ⊢
    rcases hb with h | h
    · exact Or.inl h
    · exact absurd h (by decide)

theorem altOk_cons_hash {a : Str} {X : List Str} (ha : startsWith hashMark a = true)
    (hX : altOk X = true) : altOk (a :: X) = true := by
  cases X with
  | nil => rfl
  | cons b r => simp [altOk, ha, hX]

theorem altOk_groupRuns : ∀ (cls : List Str) (buf : Str),
    startsWith hashMark buf = false → altOk (groupRuns buf cls) = true := by
  intro cls
  induction cls with
  | nil =>
    intro buf _
    rw [groupRuns]
    by_cases he : buf.isEmpty <;> simp [he, altOk]
  | cons cl cls ih =>
    intro buf hbuf
    rw [groupRuns]
    by_cases hh : startsWith hashMark cl = true
    · rw [if_pos hh]
      have hG : altOk (cl :: groupRuns [] cls) = true :=
        altOk_cons_hash hh (ih [] rfl)
      by_cases he : buf.isEmpty
      · rw [if_pos he]
        simpa using hG
      · rw [if_neg he, List.singleton_append, altOk, Bool.and_eq_true]
        exact ⟨by rw [hh]; simp, hG⟩
    · rw [if_neg hh]
      exact ih (buf ++ cl) (startsWith_hash_append hbuf (by simpa using hh))

theorem groupRuns_filter_hash : ∀ (cls : List Str) (buf : Str),
    startsWith hashMark buf = false →
    (groupRuns buf cls).filter (fun l => startsWith hashMark l) =
      cls.filter (fun l => startsWith hashMark l) := by
  intro cls
  induction cls with
  | nil =>
    intro buf hbuf
    rw [groupRuns]
    by_cases he : buf.isEmpty
    · simp [he]
    · simp [he, List.filter, hbuf]
  | cons cl cls ih =>
    intro buf hbuf
    rw [groupRuns]
    by_cases hh : startsWith hashMark cl = true
    · rw [if_pos hh, List.filter_append]
      have hl : ((if buf.isEmpty then [] else [buf]) : List Str).filter
          (fun l => startsWith hashMark l) = [] := by
        by_cases he : buf.isEmpty
        · simp [he]
        · simp [he, List.filter, hbuf]
      rw [hl]
      simp [List.filter, hh, ih [] rfl]
    · rw [if_neg hh]
      rw [ih (buf ++ cl) (startsWith_hash_append hbuf (by simpa using hh))]
      simp [List.filter, hh]

/-- Every output line of the minifier is non-empty, starts and ends with a
non-whitespace character, and contains no line-boundary character. -/
theorem minifyLines_good (s : Str) :
    ∀ l ∈ minifyLines s, goodLine l = true ∧ noBdry l = true := by
  rw [minifyLines_eq_groupRuns]
  intro l hl
  have h1 := groupRuns_pred (fun x => goodLine x && noBdry x)
    (fun a b hA hB => by
      rw [Bool.and_eq_true] at hA hB ⊢
      exact ⟨goodLine_append hA.1 hB.1, noBdry_append hA.2 hB.2⟩)
    (contribs false (splitlines s)) [] (Or.inl rfl)
    (fun cl hcl => by
      obtain ⟨hg, hb⟩ := contribs_good (splitlines s) false (splitlines_noBdry s) cl hcl
      rw [Bool.and_eq_true]
      exact ⟨hg, hb⟩)
    l hl
  rwa [Bool.and_eq_true] at h1

/-- No two adjacent output lines are both non-directives. -/
theorem minifyLines_altOk (s : Str) : altOk (minifyLines s) = true := by
  rw [minifyLines_eq_groupRuns]
  exact altOk_groupRuns _ [] rfl

/-- The `#`-lines of the output are exactly the directive contributions of
the input lines, in order. -/
theorem minifyLines_filter_hash (s : Str) :
    (minifyLines s).filter (fun l => startsWith hashMark l) =
      (contribs false (splitlines s)).filter (fun l => startsWith hashMark l) := by
  rw [minifyLines_eq_groupRuns]
  exact groupRuns_filter_hash _ [] rfl

theorem joinLines_cons_cons (l l' : Str) (ls : List Str) :
    joinLines (l :: l' :: ls) = l ++ '\n' :: joinLines (l' :: ls) := rfl

theorem joinLines_head {l : Str} (ls : List Str) (h : l ≠ []) :
    (joinLines (l :: ls)).head? = l.head? := by
  cases ls with
  | nil => rfl
  | cons l2 ls2 =>
    rw [joinLines_cons_cons]
    cases l with
    | nil => exact absurd rfl h
    | cons c t => rfl

theorem joinLines_ne_nil {l : Str} (ls : List Str) (h : l ≠ []) :
    joinLines (l :: ls) ≠ [] := by
  cases ls with
  | nil => exact h
  | cons l2 ls2 =>
    rw [joinLines_cons_cons]
    cases l with
    | nil => exact absurd rfl h
    | cons c t => simp

theorem splitlinesAux_append_nb : ∀ (l acc rest : Str), noBdry l = true →
    splitlinesAux acc (l ++ rest) = splitlinesAux (l.reverse ++ acc) rest := by
  intro l
  induction l with
  | nil => intro acc rest _; simp
  | cons c t ih =>
    intro acc rest hnb
    have hc : isLineBoundary c = false := by
      simpa using (List.all_eq_true.mp hnb) c (List.mem_cons_self _ _)
    have hnt : noBdry t = true := by
      rw [noBdry, List.all_eq_true] at hnb ⊢
      exact fun x hx => hnb x (List.mem_cons_of_mem _ hx)
    rw [List.cons_append, splitlinesAux_cons_nb _ _ hc, ih (c :: acc) rest hnt]
    simp [List.reverse_cons, List.append_assoc]

theorem splitlinesAux_nb_nil (l acc : Str) (hnb : noBdry l = true) :
    splitlinesAux acc l = [acc.reverse ++ l] := by
  have h := splitlinesAux_append_nb l acc [] hnb
  rw [List.append_nil] at h
  rw [h, splitlinesAux.eq_1, List.reverse_append, List.reverse_reverse]

theorem splitlines_single {l : Str} (hne : l ≠ []) (hnb : noBdry l = true) :
    splitlines l = [l] := by
  cases l with
  | nil => exact absurd rfl hne
  | cons c t =>
    rw [splitlines, splitlinesAux_nb_nil _ _ hnb]
    rfl

/-- Splitting the joined output lines gives the lines back, when each is
non-empty and free of line boundaries. -/
theorem splitlines_joinLines : ∀ ls : List Str,
    (∀ l ∈ ls, l ≠ [] ∧ noBdry l = true) → splitlines (joinLines ls) = ls := by
  intro ls
  induction ls with
  | nil => intro _; rfl
  | cons l ls ih =>
    intro h
    obtain ⟨hne, hnb⟩ := h l (List.mem_cons_self _ _)
    cases ls with
    | nil => exact splitlines_single hne hnb
    | cons l2 ls2 =>
      obtain ⟨hne2, -⟩ := h l2 (by simp)
      have hw : joinLines (l2 :: ls2) ≠ [] := joinLines_ne_nil ls2 hne2
      rw [joinLines_cons_cons]
      cases l with
      | nil => exact absurd rfl hne
      | cons c t =>
        rw [List.cons_append, splitlines, ← List.cons_append,
          splitlinesAux_append_nb (c :: t) [] _ hnb,
          splitlinesAux_cons_bd _ _ (by decide)
            (fun r1 hc _ => absurd hc (by decide)),
          if_neg (by simp [isEmpty_eq_false_of_ne_nil hw])]
        have hsw : splitlinesAux [] (joinLines (l2 :: ls2)) =
            splitlines (joinLines (l2 :: ls2)) := by
          cases hww : joinLines (l2 :: ls2) with
          | nil => exact absurd hww hw
          | cons d wd => rw [splitlines]
        rw [hsw, ih (fun x hx => h x (List.mem_cons_of_mem _ hx))]
        simp

theorem concatAll_groupRuns : ∀ (cls : List Str) (buf : Str),
    concatAll (groupRuns buf cls) = buf ++ concatAll cls := by
  intro cls
  induction cls with
  | nil =>
    intro buf
    rw [groupRuns]
    by_cases he : buf.isEmpty
    · have hb : buf = [] := List.isEmpty_iff.mp he
      simp [he, hb, concatAll]
    · simp [he, concatAll]
  | cons cl cls ih =>
    intro buf
    rw [groupRuns]
    by_cases hh : startsWith hashMark cl = true
    · rw [if_pos hh]
      by_cases he : buf.isEmpty
      · have hb : buf = [] := List.isEmpty_iff.mp he
        simp [he, hb, concatAll, ih]
      · simp [he, concatAll, ih, List.append_assoc]
    · rw [if_neg hh, ih (buf ++ cl), List.append_assoc]
      rfl

theorem removeNl_eq_self {l : Str} (h : noBdry l = true) : removeNl l = l := by
  rw [removeNl, List.filter_eq_self]
  intro a ha
  have hb := List.all_eq_true.mp h a ha
  have : a ≠ '\n' := by
    intro hq
    rw [hq] at hb
    exact absurd hb (by decide)
  simpa using this

theorem removeNl_joinLines : ∀ ls : List Str, (∀ l ∈ ls, noBdry l = true) →
    removeNl (joinLines ls) = concatAll ls := by
  intro ls
  induction ls with
  | nil => intro _; rfl
  | cons l ls ih =>
    intro h
    cases ls with
    | nil =>
      show removeNl l = concatAll [l]
      rw [removeNl_eq_self (h l (List.mem_cons_self _ _))]
      simp [concatAll]
    | cons l2 ls2 =>
      rw [joinLines_cons_cons, removeNl, List.filter_append,
        ← removeNl, ← removeNl, removeNl_eq_self (h l (List.mem_cons_self _ _))]
      have hstep : removeNl ('\n' :: joinLines (l2 :: ls2)) =
          removeNl (joinLines (l2 :: ls2)) := by
        rw [removeNl, removeNl, List.filter_cons]
        simp
      rw [hstep, ih (fun x hx => h x (List.mem_cons_of_mem _ hx))]
      rfl

theorem hasDoubleNl_nonl : ∀ (l : Str), (∀ c ∈ l, c ≠ '\n') → hasDoubleNl l = false
  | [] => fun _ => rfl
  | [_] => fun _ => rfl
  | a :: b :: r => fun h => by
    rw [hasDoubleNl]
    have ha : a ≠ '\n' := h a (by simp)
    rw [hasDoubleNl_nonl (b :: r) (fun c hc => h c (List.mem_cons_of_mem _ hc))]
    simp [ha]

theorem hasDoubleNl_append_nonl : ∀ (l w : Str), (∀ c ∈ l, c ≠ '\n') →
    hasDoubleNl ('\n' :: w) = false → hasDoubleNl (l ++ '\n' :: w) = false := by
  intro l
  induction l with
  | nil => intro w _ hw; simpa using hw
  | cons a l' ih =>
    intro w h hw
    have ha : a ≠ '\n' := h a (List.mem_cons_self _ _)
    have hrec := ih w (fun c hc => h c (List.mem_cons_of_mem _ hc)) hw
    cases hl : l' ++ '\n' :: w with
    | nil => simp at hl
    | cons x xs =>
      rw [List.cons_append, hl, hasDoubleNl, ← hl, hrec]
      simp [ha]

theorem nonl_of_noBdry {l : Str} (h : noBdry l = true) : ∀ c ∈ l, c ≠ '\n' := by
  intro c hc hq
  have := List.all_eq_true.mp h c hc
  rw [hq] at this
  exact absurd this (by decide)

theorem hasDoubleNl_joinLines : ∀ ls : List Str,
    (∀ l ∈ ls, l ≠ [] ∧ noBdry l = true) → hasDoubleNl (joinLines ls) = false := by
  intro ls
  induction ls with
  | nil => intro _; rfl
  | cons l ls ih =>
    intro h
    obtain ⟨hne, hnb⟩ := h l (List.mem_cons_self _ _)
    cases ls with
    | nil => exact hasDoubleNl_nonl l (nonl_of_noBdry hnb)
    | cons l2 ls2 =>
      rw [joinLines_cons_cons]
      refine hasDoubleNl_append_nonl l _ (nonl_of_noBdry hnb) ?_
      have hw := ih (fun x hx => h x (List.mem_cons_of_mem _ hx))
      obtain ⟨hne2, hnb2⟩ := h l2 (by simp)
      cases hj : joinLines (l2 :: ls2) with
      | nil => rfl
      | cons d w =>
        have hd : d ≠ '\n' := by
          have hh := joinLines_head ls2 hne2
          rw [hj] at hh
          cases l2 with
          | nil => exact absurd rfl hne2
          | cons e l2t =>
            simp only [List.head?_cons, Option.some.injEq] at hh
            rw [hh]
            exact nonl_of_noBdry hnb2 e (List.mem_cons_self _ _)
        rw [hasDoubleNl, ← hj, hw]
        simp [hd]

theorem contribs_concat_sublist : ∀ (ls : List Str) (f : Bool),
    List.Sublist (concatAll (contribs f ls)) (codeKept f ls) := by
  intro ls
  induction ls with
  | nil => intro f; exact List.nil_sublist []
  | cons l ls ih =>
    intro f
    rw [contribs, codeKept]
    cases hc : contribOf f l with
    | none => exact (ih _).trans (List.sublist_append_right _ _)
    | some cl =>
      rw [concatAll]
      refine List.Sublist.append ?_ (ih _)
      obtain ⟨hcl, -, -⟩ := contribRaw_eq hc
      rw [hcl]
      exact rstrip_sublist _

theorem rstrip_eq_self {l : Str} (hne : l ≠ []) (h : isPySpace (l.getLastD 'x') = false) :
    rstrip l = l := by
  rw [rstrip]
  cases hr : l.reverse with
  | nil => rw [List.reverse_eq_nil_iff] at hr; exact absurd hr hne
  | cons d w =>
    have hd : l.getLastD 'x' = d := by
      rw [List.getLastD_eq_getLast?, ← List.head?_reverse, hr]
      rfl
    rw [List.dropWhile_cons, if_neg (by simp [hd ▸ h]), ← hr, List.reverse_reverse]

theorem goodLine_ne_nil {l : Str} (h : goodLine l = true) : l ≠ [] := by
  rw [goodLine, Bool.and_eq_true, Bool.and_eq_true] at h
  exact ne_nil_of_isEmpty_eq_false (by simpa using h.1.1)

theorem contrib_minline {l : Str} (h : goodMinLine l = true) :
    contribOf false l = some l ∧ nextFlag false l = false := by
  rw [goodMinLine, Bool.and_eq_true, Bool.and_eq_true] at h
  obtain ⟨⟨hg, hds⟩, hsm⟩ := h
  have hne : l ≠ [] := goodLine_ne_nil hg
  rw [goodLine, Bool.and_eq_true, Bool.and_eq_true] at hg
  obtain ⟨⟨hg1, hg2⟩, hg3⟩ := hg
  have hfs : findSub startMark l = none := by
    cases hx : findSub startMark l with
    | none => rfl
    | some i =>
      have hct : containsSub startMark l = true := by simp [containsSub, hx]
      rw [hct] at hsm
      simp at hsm
  have hscan : scanLine false l = (l, false) := by
    simp [scanLine, stripBlock_eq_none hfs]
  have hlst : lstrip l = l := by
    cases l with
    | nil => exact absurd rfl hne
    | cons c t => exact lstrip_eq_self (by simpa using hg2)
  have hrst : rstrip l = l := rstrip_eq_self hne (by simpa using hg3)
  have hsw : startsWith dblSlash l = false := by
    cases hx : startsWith dblSlash l with
    | false => rfl
    | true =>
      rw [containsSub_of_startsWith hx] at hds
      simp at hds
  have htb : takeBefore dblSlash l = l := by
    rw [takeBefore]
    have hn : findSub dblSlash l = none := by
      cases hx : findSub dblSlash l with
      | none => rfl
      | some i =>
        have hct : containsSub dblSlash l = true := by simp [containsSub, hx]
        rw [hct] at hds
        simp at hds
    rw [hn]
  have hps : pyStrip l = l := by rw [pyStrip, hlst, hrst]
  constructor
  · rw [contribOf, hscan]
    simp [contribRaw, hps, isEmpty_eq_false_of_ne_nil hne, hlst, hsw, htb, hrst]
  · rw [nextFlag, hscan]

theorem contribs_minlines : ∀ ls : List Str, (∀ l ∈ ls, goodMinLine l = true) →
    contribs false ls = ls := by
  intro ls
  induction ls with
  | nil => intro _; rfl
  | cons l ls ih =>
    intro h
    obtain ⟨hc, hf⟩ := contrib_minline (h l (List.mem_cons_self _ _))
    rw [contribs]
    simp [hc, hf, ih (fun x hx => h x (List.mem_cons_of_mem _ hx))]

theorem altOk_tail : ∀ {a : Str} {ls : List Str}, altOk (a :: ls) = true → altOk ls = true := by
  intro a ls h
  cases ls with
  | nil => rfl
  | cons b rs =>
    rw [altOk, Bool.and_eq_true] at h
    exact h.2

theorem groupRuns_id : ∀ ls : List Str, (∀ l ∈ ls, l ≠ []) → altOk ls = true →
    (groupRuns [] ls = ls ∧
      ∀ buf : Str, buf ≠ [] → headHash ls = true → groupRuns buf ls = buf :: ls) := by
  intro ls
  induction ls with
  | nil =>
    intro _ _
    constructor
    · rfl
    · intro buf hb _
      rw [groupRuns, if_neg (by simp [isEmpty_eq_false_of_ne_nil hb])]
  | cons a rest ih =>
    intro hne halt
    have hane : a ≠ [] := hne a (List.mem_cons_self _ _)
    have hrestne : ∀ l ∈ rest, l ≠ [] := fun x hx => hne x (List.mem_cons_of_mem _ hx)
    obtain ⟨ih1, ih2⟩ := ih hrestne (altOk_tail halt)
    constructor
    · by_cases hh : startsWith hashMark a = true
      · rw [groupRuns, if_pos hh]
        simp [ih1]
      · rw [groupRuns, if_neg hh, List.nil_append]
        cases rest with
        | nil => rw [groupRuns, if_neg (by simp [isEmpty_eq_false_of_ne_nil hane])]
        | cons b rs =>
          have hb : startsWith hashMark b = true := by
            rw [altOk, Bool.and_eq_true] at halt
            rcases Bool.or_eq_true_iff.mp halt.1 with h1 | h2
            · exact absurd h1 hh
            · exact h2
          exact ih2 a hane (by rw [headHash]; exact hb)
    · intro buf hbuf hhh
      rw [headHash] at hhh
      rw [groupRuns, if_pos hhh, if_neg (by simp [isEmpty_eq_false_of_ne_nil hbuf]),
        ih1, List.singleton_append]

theorem goodMinLine_components {l : Str} (h : goodMinLine l = true) :
    goodLine l = true ∧ containsSub dblSlash l = false ∧ containsSub startMark l = false := by
  rw [goodMinLine, Bool.and_eq_true, Bool.and_eq_true] at h
  exact ⟨h.1.1, by simpa using h.1.2, by simpa using h.2⟩

/-- A string in minified form is a fixed point of the minifier. -/
theorem format_shader_fixed {t : Str} (h : minifiedForm t = true) : format_shader t = t := by
  rw [minifiedForm, Bool.and_eq_true, Bool.and_eq_true] at h
  obtain ⟨⟨hjoin, hall⟩, halt⟩ := h
  have hjoin' : t = joinLines (splitlines t) := of_decide_eq_true hjoin
  have hgood : ∀ l ∈ splitlines t, goodMinLine l = true := by
    intro l hl
    exact List.all_eq_true.mp hall l hl
  have hlsne : ∀ l ∈ splitlines t, l ≠ [] := by
    intro l hl
    exact goodLine_ne_nil (goodMinLine_components (hgood l hl)).1
  rw [format_shader, minifyLines_eq_groupRuns, contribs_minlines _ hgood,
    (groupRuns_id _ hlsne halt).1, ← hjoin']

theorem containsSub_joinLines : ∀ {p : Str} (ls : List Str) (l : Str), l ∈ ls →
    containsSub p l = true → containsSub p (joinLines ls) = true := by
  intro p ls
  induction ls with
  | nil => intro l hl _; simp at hl
  | cons a rest ih =>
    intro l hl hc
    cases rest with
    | nil =>
      simp only [List.mem_singleton] at hl
      subst hl
      exact hc
    | cons b rs =>
      rw [joinLines_cons_cons]
      rcases List.mem_cons.mp hl with h1 | h2
      · subst h1
        exact containsSub_append_left _ hc
      · have h3 : containsSub p ('\n' :: joinLines (b :: rs)) = true := by
          rw [containsSub_cons, ih l h2 hc]
          simp
        exact containsSub_append_right a h3

theorem noMarkers_components {s : Str} (h : noMarkers s = true) :
    containsSub dblSlash s = false ∧ containsSub startMark s = false ∧
      containsSub endMark s = false := by
  rw [noMarkers, Bool.and_eq_true, Bool.and_eq_true] at h
  exact ⟨by simpa using h.1.1, by simpa using h.1.2, by simpa using h.2⟩

/-- The minifier's own output is in minified form whenever it is free of
comment markers. -/
theorem format_shader_minform {s : Str} (h : noMarkers (format_shader s) = true) :
    minifiedForm (format_shader s) = true := by
  obtain ⟨hm1, hm2, -⟩ := noMarkers_components h
  have hgood := minifyLines_good s
  have hlines : splitlines (format_shader s) = minifyLines s :=
    splitlines_joinLines _ (fun l hl => ⟨goodLine_ne_nil (hgood l hl).1, (hgood l hl).2⟩)
  rw [minifiedForm, Bool.and_eq_true, Bool.and_eq_true]
  refine ⟨⟨?_, ?_⟩, ?_⟩
  · rw [hlines]
    exact decide_eq_true rfl
  · rw [hlines, List.all_eq_true]
    intro l hl
    rw [goodMinLine, Bool.and_eq_true, Bool.and_eq_true]
    refine ⟨⟨(hgood l hl).1, ?_⟩, ?_⟩
    · cases hx : containsSub dblSlash l with
      | false => rfl
      | true =>
        have hj := containsSub_joinLines (minifyLines s) l hl hx
        rw [show joinLines (minifyLines s) = format_shader s from rfl, hm1] at hj
        simp at hj
    · cases hx : containsSub startMark l with
      | false => rfl
      | true =>
        have hj := containsSub_joinLines (minifyLines s) l hl hx
        rw [show joinLines (minifyLines s) = format_shader s from rfl, hm2] at hj
        simp at hj
  · rw [hlines]
    exact minifyLines_altOk s

/-- The minifier is idempotent on outputs free of comment markers. -/
theorem format_shader_idem {s : Str} (h : noMarkers (format_shader s) = true) :
    format_shader (format_shader s) = format_shader s :=
  format_shader_fixed (format_shader_minform h)

theorem splitFull_nil : splitFull [] = [] := by
  rw [splitFull]

theorem splitFull_cons (c : Char) (rest : Str) :
    splitFull (c :: rest) =
      (c :: rest).takeWhile (fun x => !isLineBoundary x) ::
        splitFull (dropTerm ((c :: rest).dropWhile (fun x => !isLineBoundary x))) := by
  rw [splitFull]

theorem splitFull_ne_nil {c : Char} {rest : Str} : splitFull (c :: rest) ≠ [] := by
  rw [splitFull_cons]
  simp

theorem splitlinesAux_eq_splitFull : ∀ (n : Nat) (s acc : Str), s.length ≤ n →
    splitlinesAux acc s =
      (match splitFull s with
      | [] => [acc.reverse]
      | l :: rest => (acc.reverse ++ l) :: rest) := by
  intro n
  induction n with
  | zero =>
    intro s acc hlen
    have hs : s = [] := List.length_eq_zero.mp (Nat.le_zero.mp hlen)
    subst hs
    rw [splitFull_nil]
    rfl
  | succ n ih =>
    intro s acc hlen
    rcases s with _ | ⟨c, rest⟩
    · rw [splitFull_nil]
      rfl
    · by_cases hb : isLineBoundary c = true
      · -- boundary head: the list after the terminator
        have hterm : ∃ r2 : Str, splitFull (c :: rest) = [] :: splitFull r2 ∧
            splitlinesAux acc (c :: rest) =
              (if r2.isEmpty then [acc.reverse]
               else acc.reverse :: splitlinesAux [] r2) ∧
            r2.length ≤ n := by
          by_cases hpair : c = '\x0d' ∧ ∃ r3, rest = '\n' :: r3
          · obtain ⟨hc, r3, hr⟩ := hpair
            subst hc
            subst hr
            refine ⟨r3, ?_, ?_, ?_⟩
            · rw [splitFull_cons, List.takeWhile_cons, if_neg (by decide),
                List.dropWhile_cons, if_neg (by decide)]
              have hdt : dropTerm ('\x0d' :: '\n' :: r3) = r3 := by
                rw [dropTerm, if_pos (by simp)]
                rfl
              rw [hdt]
            · rw [splitlinesAux.eq_2]
            · simp only [List.length_cons] at hlen ⊢
              omega
          · have hno : ∀ (r1 : List Char), c = '\x0d' → rest = '\n' :: r1 → False := by
              intro r1 hc hr
              exact hpair ⟨hc, r1, hr⟩
            refine ⟨rest, ?_, ?_, ?_⟩
            · rw [splitFull_cons, List.takeWhile_cons, if_neg (by simp [hb]),
                List.dropWhile_cons, if_neg (by simp [hb])]
              have hdt : dropTerm (c :: rest) = rest := by
                rw [dropTerm]
                split
                · next hcond =>
                  exfalso
                  rw [Bool.and_eq_true] at hcond
                  have hc : c = '\x0d' := by simpa using hcond.1
                  have hh : rest.headD 'x' = '\n' := by simpa using hcond.2
                  cases rest with
                  | nil => simp at hh
                  | cons d r3 =>
                    simp only [List.headD_cons] at hh
                    exact hno r3 hc (by rw [hh])
                · rfl
              rw [hdt]
            · rw [splitlinesAux_cons_bd _ _ hb hno]
            · simp only [List.length_cons] at hlen ⊢
              omega
        obtain ⟨r2, hsf, hlhs, hr2len⟩ := hterm
        rw [hsf, hlhs]
        cases r2 with
        | nil =>
          rw [splitFull_nil]
          simp
        | cons d r3 =>
          rw [if_neg (by simp)]
          have hih := ih (d :: r3) [] hr2len
          cases hsf2 : splitFull (d :: r3) with
          | nil => exact absurd hsf2 splitFull_ne_nil
          | cons l0 r0 =>
            rw [hsf2] at hih
            simp only [List.nil_append] at hih
            rw [hih]
            simp
      · -- non-boundary head: accumulate
        have hb' : isLineBoundary c = false := by simpa using hb
        rw [splitlinesAux_cons_nb _ _ hb']
        have hih := ih rest (c :: acc) (by simp only [List.length_cons] at hlen ⊢; omega)
        rw [hih]
        rw [splitFull_cons, List.takeWhile_cons, if_pos (by simp [hb']),
          List.dropWhile_cons, if_pos (by simp [hb'])]
        cases rest with
        | nil =>
          rw [splitFull_nil]
          simp only [List.takeWhile_nil, List.dropWhile_nil]
          rw [show dropTerm [] = [] from rfl, splitFull_nil]
          simp [List.reverse_cons]
        | cons d r3 =>
          rw [splitFull_cons]
          simp [List.reverse_cons, List.append_assoc]

/-- The embedded `splitlines` agrees with the span-based full-boundary
splitter on every input. -/
theorem splitlines_eq_splitFull (s : Str) : splitlines s = splitFull s := by
  cases s with
  | nil => rw [splitFull_nil]; rfl
  | cons c rest =>
    rw [splitlines, splitlinesAux_eq_splitFull (c :: rest).length (c :: rest) []
      (Nat.le_refl _)]
    cases hsf : splitFull (c :: rest) with
    | nil => exact absurd hsf splitFull_ne_nil
    | cons l0 r0 => simp

theorem processCode_flag (st : MinState) (x : Str) (b : Bool) :
    processCode st (x, b) = { processCode st (x, false) with in_multiline_comment := b } := by
  unfold processCode
  by_cases h1 : (pyStrip x).isEmpty
  · simp [h1]
  · by_cases h2 : startsWith dblSlash (lstrip x)
    · simp [h1, h2]
    · by_cases h3 : startsWith hashMark (rstrip (takeBefore dblSlash (lstrip x)))
      · simp [h1, h2, h3]
      · simp [h1, h2, h3]

theorem processCode_flag_out (st : MinState) (p : Str × Bool) :
    (processCode st p).in_multiline_comment = p.2 := by
  unfold processCode
  by_cases h1 : (pyStrip p.1).isEmpty
  · simp [h1]
  · by_cases h2 : startsWith dblSlash (lstrip p.1)
    · simp [h1, h2]
    · by_cases h3 : startsWith hashMark (rstrip (takeBefore dblSlash (lstrip p.1)))
      · simp [h1, h2, h3]
      · simp [h1, h2, h3]

theorem contrib_blank {l : Str} (h : (pyStrip l).isEmpty = true) :
    contribOf false l = none ∧ nextFlag false l = false := by
  have hsp : ∀ c ∈ l, isPySpace c = true := pyStrip_isEmpty_iff.mp h
  have hfs : findSub startMark l = none := by
    apply findSub_none_of_not_mem
    intro hm
    exact absurd (hsp '/' hm) (by decide)
  have hscan : scanLine false l = (l, false) := by
    simp [scanLine, stripBlock_eq_none hfs]
  constructor
  · rw [contribOf, hscan]
    simp [contribRaw, h]
  · rw [nextFlag, hscan]

theorem contribs_blank : ∀ ls : List Str,
    (ls.all (fun l => (pyStrip l).isEmpty)) = true → contribs false ls = [] := by
  intro ls
  induction ls with
  | nil => intro _; rfl
  | cons l ls ih =>
    intro h
    rw [List.all_cons, Bool.and_eq_true] at h
    obtain ⟨hc, hf⟩ := contrib_blank h.1
    rw [contribs]
    simp [hc, hf, ih h.2]

theorem joinLines_getLastD_good : ∀ ls : List Str, (∀ l ∈ ls, goodLine l = true) →
    isPySpace ((joinLines ls).getLastD 'x') = false := by
  intro ls
  induction ls with
  | nil => intro _; decide
  | cons l ls ih =>
    intro h
    cases ls with
    | nil =>
      have hg := h l (List.mem_cons_self _ _)
      rw [goodLine, Bool.and_eq_true, Bool.and_eq_true] at hg
      simpa using hg.2
    | cons l2 ls2 =>
      rw [joinLines_cons_cons]
      have hw : joinLines (l2 :: ls2) ≠ [] :=
        joinLines_ne_nil ls2 (goodLine_ne_nil (h l2 (by simp)))
      rw [getLastD_append_right (show ('\n' :: joinLines (l2 :: ls2)) ≠ [] by simp) 'x',
        List.getLastD_cons, getLastD_irrel hw '\n' 'x']
      exact ih (fun x hx => h x (List.mem_cons_of_mem _ hx))

/-- C1, counterexample: on the input `"a /*x*/ b /*y*/ c"` the minifier's
output keeps the text of the second, well-formed `/*y*/` block comment of
the input (one block-comment detection per line), so the output is not
built from the input's non-comment characters under the spec's reading of
comment regions: it is not a subsequence of `specNonComment`. -/
theorem claim_c1_counterexample :
    ¬ List.Sublist (removeNl (format_shader ("a /*x*/ b /*y*/ c".toList)))
      (specNonComment ("a /*x*/ b /*y*/ c".toList)) := by
  intro h
  have hmem : '/' ∈ removeNl (format_shader ("a /*x*/ b /*y*/ c".toList)) := by decide
  exact absurd (h.subset hmem) (by decide)

/-- C1 (amended): every non-newline character of the output comes, in
order, from the non-comment portion of the input as the code itself scans
it — block comments removed with a single detection per line (so a second
`/*...*/` pair on the same line survives), the remaining lines truncated
at their first `//` — i.e. the output without its newline separators is a
subsequence of `codeNonComment`. -/
theorem claim_c1_comment_removal (s : Str) :
    List.Sublist (removeNl (format_shader s)) (codeNonComment s) := by
  rw [format_shader, removeNl_joinLines _ (fun l hl => (minifyLines_good s l hl).2),
    minifyLines_eq_groupRuns, concatAll_groupRuns, List.nil_append]
  exact contribs_concat_sublist _ _

/-- C2: an unterminated `/*` discards the comment start — only the text
before the `/*` on that line is processed, with the flag raised — and the
state then absorbs every subsequent line without a `*/` unchanged; in
particular `"/* unterminated\nfloat c = 3;"` minifies to `""`. -/
theorem claim_c2_unterminated :
    format_shader ("/* unterminated\nfloat c = 3;".toList) = [] ∧
    (∀ (st : MinState) (ls : List Str), st.in_multiline_comment = true →
      (ls.all (fun l => (findSub endMark l).isNone)) = true →
      List.foldl processLine st ls = st) ∧
    (∀ (st : MinState) (line : Str) (i : Nat), st.in_multiline_comment = false →
      findSub startMark line = some i →
      findSubFrom endMark line (i + 2) = none →
      processLine st line =
        { processLine st (line.take i) with in_multiline_comment := true }) := by
  refine ⟨by decide, ?_, ?_⟩
  · intro st ls
    induction ls generalizing st with
    | nil => intro _ _; rfl
    | cons l ls ih =>
      intro hf hall
      rw [List.all_cons, Bool.and_eq_true] at hall
      have hnone : findSub endMark l = none := by
        cases hx : findSub endMark l with
        | none => rfl
        | some i => rw [hx] at hall; simp at hall
      rw [List.foldl_cons]
      have hstep : processLine st l = st := by
        rw [processLine, if_pos hf, hnone]
      rw [hstep]
      exact ih st hf hall.2
  · intro st line i hf h1 h2
    have hl : processLine st line = processCode st (line.take i, true) := by
      rw [processLine, if_neg (by simp [hf]), stripBlock_eq_open h1 h2]
    have hr : processLine st (line.take i) = processCode st (line.take i, false) := by
      rw [processLine, if_neg (by simp [hf]),
        stripBlock_eq_none (findSub_take_none h1)]
    rw [hl, hr]
    exact processCode_flag st (line.take i) true

/-- C3: the output lines starting with `#` are exactly the directive code
lines contributed by the input lines, in order — each one input line,
stripped of leading whitespace and its trailing comment; and a directive
line first flushes a non-empty buffer as its own output line, then is
emitted standalone, never merged. -/
theorem claim_c3_directive_isolation :
    (∀ s : Str, (minifyLines s).filter (fun l => startsWith hashMark l) =
      hashContribs false (splitlines s)) ∧
    (∀ (st : MinState) (line cl : Str),
      contribOf st.in_multiline_comment line = some cl →
      startsWith hashMark cl = true →
      processLine st line =
        { output_lines := st.output_lines ++
            (if st.buffer_line.isEmpty then [] else [st.buffer_line]) ++ [cl],
          buffer_line := [],
          in_multiline_comment := nextFlag st.in_multiline_comment line }) := by
  constructor
  · intro s
    rw [minifyLines_filter_hash]
    rfl
  · intro st line cl hc hh
    rw [processLine_decomp]
    simp only [hc, hh, if_pos]
    by_cases he : st.buffer_line.isEmpty <;> simp [he]

/-- C4: a line whose surviving text (after block-comment handling, with
the flag down) is blank or a full-line `//` comment leaves the loop state
exactly unchanged — it contributes nothing and does not interrupt an
in-progress accumulation; in particular
`"a = 1;\n// comment\n+ 2;"` minifies to `"a = 1;+ 2;"`. -/
theorem claim_c4_comment_only_line :
    (∀ (st : MinState) (line lk : Str), st.in_multiline_comment = false →
      stripBlock line = (lk, false) →
      ((pyStrip lk).isEmpty = true ∨ startsWith dblSlash (lstrip lk) = true) →
      processLine st line = st) ∧
    format_shader ("a = 1;\n// comment\n+ 2;".toList) = "a = 1;+ 2;".toList := by
  constructor
  · intro st line lk hf hsb hskip
    obtain ⟨o, b, f⟩ := st
    simp only at hf
    subst hf
    show processCode ⟨o, b, false⟩ (stripBlock line) = ⟨o, b, false⟩
    rw [hsb]
    unfold processCode
    rcases hskip with h | h
    · simp [h]
    · by_cases hps : (pyStrip lk).isEmpty <;> simp [h, hps]
  · decide

/-- C5: on a line outside a block comment whose first `/*` is at `i` and
whose first `*/` after it is at `j`, the loop body continues with exactly
`line[:i] ++ line[j+2:]` and proceeds straight to the comment-free rest
of the body — the result is not re-scanned for a second block comment —
so a second `/*...*/` pair on the line is left in place, as on
`"a /*x*/ b /*y*/ c"`. -/
theorem claim_c5_single_detection :
    (∀ (st : MinState) (line : Str) (i j : Nat), st.in_multiline_comment = false →
      findSub startMark line = some i →
      findSubFrom endMark line (i + 2) = some j →
      processLine st line = processCode st (line.take i ++ line.drop (j + 2), false)) ∧
    format_shader ("a /*x*/ b /*y*/ c".toList) = "a  b /*y*/ c".toList := by
  constructor
  · intro st line i j hf h1 h2
    rw [processLine, if_neg (by simp [hf]), stripBlock_eq_pair h1 h2]
  · decide

/-- C6: the embedded minifier is a total computable function of the input
string (its Lean definition makes every call terminate and return); the
empty string yields the empty string, and any input whose lines are all
empty or whitespace-only also yields the empty string. -/
theorem claim_c6_totality :
    format_shader [] = [] ∧
    (∀ s : Str, ((splitlines s).all (fun l => (pyStrip l).isEmpty)) = true →
      format_shader s = []) := by
  constructor
  · rfl
  · intro s hall
    rw [format_shader, minifyLines_eq_groupRuns, contribs_blank _ hall]
    rfl

/-- C7, counterexample: `"  a"` satisfies the claim's stated conditions —
no comments, every directive on its own line (vacuously), no blank
lines, at most one non-directive run — yet minify is not the identity on
it: the leading whitespace is stripped. -/
theorem claim_c7_counterexample :
    noMarkers ("  a".toList) = true ∧ dirsOwnLine ("  a".toList) = true ∧
    noBlankLines ("  a".toList) = true ∧ altOk (splitlines ("  a".toList)) = true ∧
    format_shader ("  a".toList) ≠ ("  a".toList) :=
  ⟨by decide, by decide, by decide, by decide, by decide⟩

/-- C7 (amended): minify is the identity on strings in minified form —
strings equal to the join of their own lines, each line non-empty with
non-whitespace first and last character and free of `//` and `/*`, and no
two adjacent non-directive lines; in particular
`minify (minify s) = minify s` whenever `minify s` contains no comment
marker. -/
theorem claim_c7_idempotence :
    (∀ t : Str, minifiedForm t = true → format_shader t = t) ∧
    (∀ s : Str, noMarkers (format_shader s) = true →
      format_shader (format_shader s) = format_shader s) :=
  ⟨fun _ h => format_shader_fixed h, fun _ h => format_shader_idem h⟩

/-- C8: block-comment start detection runs before `//` stripping: on a
line outside a block comment whose first `//` (at `k`) comes before its
first `/*` (at `i`, `k < i`) with no `*/` after the `/*`, the
`in_multiline_comment` flag is still raised, so the following lines are
discarded up to the next `*/` — as on `"x; // /*\nhidden\n*/y;"`. -/
theorem claim_c8_detection_order :
    (∀ (st : MinState) (line : Str) (k i : Nat), st.in_multiline_comment = false →
      findSub dblSlash line = some k → findSub startMark line = some i → k < i →
      findSubFrom endMark line (i + 2) = none →
      (processLine st line).in_multiline_comment = true) ∧
    format_shader ("x; // /*\nhidden\n*/y;".toList) = "x;y;".toList := by
  constructor
  · intro st line k i hf hk hi hki h2
    rw [processLine, if_neg (by simp [hf]), stripBlock_eq_open hi h2]
    exact processCode_flag_out st (line.take i, true)
  · decide

/-- C9, counterexample: on `"a\rb"` the code splits at the lone `\r`
(Python `splitlines` semantics) and produces two lines, not the single
line that splitting only on `\n`/`\r\n` would give; minify therefore
returns `"ab"`, not `"a\rb"`. -/
theorem claim_c9_counterexample :
    splitlines ("a\rb".toList) ≠ splitLinesLF ("a\rb".toList) ∧
    splitlines ("a\rb".toList) = ["a".toList, "b".toList] ∧
    splitLinesLF ("a\rb".toList) = ["a\rb".toList] ∧
    format_shader ("a\rb".toList) = "ab".toList :=
  ⟨by decide, by decide, by decide, by decide⟩

/-- C9 (amended): the processing lines are the input split at every
Python `splitlines` boundary — LF, VT, FF, CR (with `"\r\n"` as one
terminator), FS, GS, RS, NEL, LINE SEPARATOR, PARAGRAPH SEPARATOR — as
characterized by the independent span-based splitter `splitFull`. -/
theorem claim_c9_line_splitting (s : Str) : splitlines s = splitFull s :=
  splitlines_eq_splitFull s

/-- C10: splitting the output gives back exactly the emitted lines; each
output line is non-empty and neither begins nor ends with a whitespace
character; consequently the output never contains two consecutive
newlines and neither begins nor ends with one (its first and last
characters, when present, are non-whitespace). -/
theorem claim_c10_output_shape (s : Str) :
    splitlines (format_shader s) = minifyLines s ∧
    (minifyLines s).all goodLine = true ∧
    hasDoubleNl (format_shader s) = false ∧
    isPySpace ((format_shader s).headD 'x') = false ∧
    isPySpace ((format_shader s).getLastD 'x') = false := by
  have hgood := minifyLines_good s
  have hprop : ∀ l ∈ minifyLines s, l ≠ [] ∧ noBdry l = true :=
    fun l hl => ⟨goodLine_ne_nil (hgood l hl).1, (hgood l hl).2⟩
  refine ⟨splitlines_joinLines _ hprop, ?_, hasDoubleNl_joinLines _ hprop, ?_, ?_⟩
  · rw [List.all_eq_true]
    exact fun l hl => (hgood l hl).1
  · cases hml : minifyLines s with
    | nil =>
      rw [format_shader, hml]
      decide
    | cons l ls =>
      rw [format_shader, hml]
      have hlg := hgood l (by rw [hml]; exact List.mem_cons_self _ _)
      have hne := goodLine_ne_nil hlg.1
      rw [List.headD_eq_head?, joinLines_head ls hne, ← List.headD_eq_head?]
      have hg := hlg.1
      rw [goodLine, Bool.and_eq_true, Bool.and_eq_true] at hg
      simpa using hg.1.2
  · rw [format_shader]
    exact joinLines_getLastD_good _ (fun l hl => (hgood l hl).1)

end GLSLMin
